import Mathlib

/-!
Verification of the visual-cryptography share encoder
(`generateVisualShares` / `generatePatterns` / `writeBlock2x2`).

The TypeScript source is embedded shallowly:

* machine numbers (JS doubles holding byte values, channel intensities,
  thresholds) become `ℕ` or `ℚ`;
* `Math.random()` draws are made explicit: each call of `generatePatterns`
  consumes one draw `t ∈ [0,1)` for the dithering threshold and three
  Fisher-Yates draws `Math.floor(Math.random() * (i+1))` for `i = 3, 2, 1`
  (values in `{0..i}`, modelled as `Fin 4`, `Fin 3`, `Fin 2`);
* `Uint8ClampedArray` buffers become total functions `ℕ → ℕ`
  (zero-initialized, as the JS typed array is), written by pointwise update;
* the imperative per-pixel / per-share loops become `List.foldl` over
  `List.range`.
-/

/-- The random draws consumed by one call of `generatePatterns`:
`t` is the `Math.random()` value used for the dithering threshold
(`threshold = 128 + (t * 60 - 30)`), and `j3`, `j2`, `j1` are the
Fisher-Yates draws `Math.floor(Math.random() * (i + 1))` for
`i = 3, 2, 1`, each lying in `{0, …, i}`. -/
structure Draws where
  t : ℚ
  j3 : Fin 4
  j2 : Fin 3
  j1 : Fin 2

/-- One step of the Fisher-Yates shuffle: the simultaneous swap
`[p[i], p[j]] = [p[j], p[i]]` on a list. -/
def listSwap (l : List ℕ) (i j : ℕ) : List ℕ :=
  (l.set i (l.getD j 0)).set j (l.getD i 0)

/-- The shuffled subpixel permutation `p` of `generatePatterns`:
`p = [0,1,2,3]` followed by the three Fisher-Yates swaps
(`i = 3`, then `i = 2`, then `i = 1`). -/
def perm (j3 : Fin 4) (j2 : Fin 3) (j1 : Fin 2) : List ℕ :=
  listSwap (listSwap (listSwap [0, 1, 2, 3] 3 j3) 2 j2) 1 j1

/-- The dithering threshold `128 + (Math.random() * 60 - 30)` of
`generatePatterns`, as a function of the raw draw `t`. -/
def threshold (t : ℚ) : ℚ := 128 + (t * 60 - 30)

/-- The dark/light classification `val < threshold` of `generatePatterns`. -/
def isDark (val t : ℚ) : Bool := val < threshold t

/-- The mutation `patterns[s][idx] = 1` on the pattern matrix. -/
def setInk (pats : List (List ℕ)) (s idx : ℕ) : List (List ℕ) :=
  pats.set s ((pats.getD s []).set idx 1)

/-- The light (`!isDark`) branch of `generatePatterns`: every share `s`
receives `patterns[s][idx1] = 1; patterns[s][idx2] = 1` where
`idx1 = p[0]`, `idx2 = p[1]`. -/
def lightPatterns (n idx1 idx2 : ℕ) : List (List ℕ) :=
  (List.replicate n ([0, 0, 0, 0] : List ℕ)).map
    (fun pat => (pat.set idx1 1).set idx2 1)

/-- The dark branch of `generatePatterns`: the hand-enumerated covering
design for `n = 2`, `n = 3`, and the `else` branch (used for `n = 4` and as
the fallback for every other `n`), applied to
`patterns = Array(n).fill(null).map(() => [0,0,0,0])`. -/
def darkPatterns (n : ℕ) (p : List ℕ) : List (List ℕ) :=
  let pats : List (List ℕ) := List.replicate n [0, 0, 0, 0]
  if n = 2 then
    setInk (setInk (setInk (setInk pats 0 (p.getD 0 0)) 0 (p.getD 1 0))
      1 (p.getD 2 0)) 1 (p.getD 3 0)
  else if n = 3 then
    setInk (setInk (setInk (setInk (setInk (setInk pats 0 (p.getD 0 0))
      0 (p.getD 1 0)) 1 (p.getD 1 0)) 1 (p.getD 2 0)) 2 (p.getD 2 0))
      2 (p.getD 3 0)
  else
    setInk (setInk (setInk (setInk (setInk (setInk (setInk (setInk pats
      0 (p.getD 0 0)) 0 (p.getD 1 0)) 1 (p.getD 1 0)) 1 (p.getD 2 0))
      2 (p.getD 2 0)) 2 (p.getD 3 0)) 3 (p.getD 3 0)) 3 (p.getD 0 0)

/-- `generatePatterns(val, n)` of the source, with the four `Math.random()`
draws it consumes made explicit as `r`. Returns one 4-bit ink pattern
(1 = ink, 0 = clear) per share. -/
def generatePatterns (val : ℚ) (n : ℕ) (r : Draws) : List (List ℕ) :=
  let p := perm r.j3 r.j2 r.j1
  if isDark val r.t then darkPatterns n p
  else lightPatterns n (p.getD 0 0) (p.getD 1 0)

/-! ### List helpers -/

/-- `getD` after `set`: the written value when the index matches and is in
bounds, the old value otherwise. -/
theorem getD_set {α : Type} (l : List α) (i j : ℕ) (v d : α) :
    (l.set i v).getD j d = if i = j ∧ i < l.length then v else l.getD j d := by
  induction l generalizing i j with
  | nil => simp [List.set]
  | cons a tl ih =>
    cases i with
    | zero =>
      cases j with
      | zero => simp
      | succ j => simp [List.getD_cons_succ]
    | succ i =>
      cases j with
      | zero => simp
      | succ j =>
        simp only [List.set, List.getD_cons_succ, List.length_cons, ih i j]
        by_cases h : i = j ∧ i < tl.length
        · rw [if_pos h, if_pos ⟨by omega, by omega⟩]
        · rw [if_neg h, if_neg (by omega)]

theorem getD_set_ne {α : Type} {i j : ℕ} (h : i ≠ j) (l : List α) (v d : α) :
    (l.set i v).getD j d = l.getD j d := by
  rw [getD_set, if_neg (by omega)]

theorem getD_set_self {α : Type} {i : ℕ} (l : List α) (v d : α) (h : i < l.length) :
    (l.set i v).getD i d = v := by
  rw [getD_set, if_pos ⟨rfl, h⟩]

theorem getD_replicate {α : Type} {n s : ℕ} (a d : α) (h : s < n) :
    (List.replicate n a).getD s d = a := by
  rw [List.getD_eq_getElem _ _ (by simpa using h), List.getElem_replicate]

/-- A `foldl` preserves any invariant its steps preserve. -/
theorem foldl_inv {α β : Type} (P : α → Prop) (f : α → β → α) :
    ∀ (l : List β), (∀ a b, b ∈ l → P a → P (f a b)) → ∀ a, P a → P (l.foldl f a) := by
  intro l
  induction l with
  | nil => intro _ a ha; exact ha
  | cons b tl ih =>
    intro hstep a ha
    exact ih (fun a c hc => hstep a c (List.mem_cons_of_mem _ hc))
      (f a b) (hstep a b (List.mem_cons_self _ _) ha)

/-- A `foldl` satisfies an invariant that some element of the list
establishes from any state and that the other elements preserve. -/
theorem foldl_establish {α β : Type} [DecidableEq β] (P : α → Prop) (f : α → β → α)
    (x : β) (hest : ∀ a, P (f a x)) :
    ∀ (l : List β), x ∈ l → (∀ a k, k ∈ l → k ≠ x → P a → P (f a k)) →
      ∀ a, P (l.foldl f a) := by
  intro l
  induction l with
  | nil => intro h; cases h
  | cons k tl ih =>
    intro hmem hpres a
    by_cases hx : x ∈ tl
    · exact ih hx (fun a c hc hne => hpres a c (List.mem_cons_of_mem _ hc) hne) (f a k)
    · have hkx : k = x := by
        rcases List.mem_cons.mp hmem with h | h
        · exact h.symm
        · exact absurd h hx
      subst hkx
      exact foldl_inv P f tl
        (fun a c hc => hpres a c (List.mem_cons_of_mem _ hc) (fun he => hx (he ▸ hc)))
        (f a k) (hest a)

/-! ### Branch reduction and classification facts -/

theorem generatePatterns_dark (val : ℚ) (n : ℕ) (t : ℚ) (j3 : Fin 4) (j2 : Fin 3)
    (j1 : Fin 2) (h : isDark val t = true) :
    generatePatterns val n ⟨t, j3, j2, j1⟩ = darkPatterns n (perm j3 j2 j1) := by
  simp [generatePatterns, h]

theorem generatePatterns_light (val : ℚ) (n : ℕ) (t : ℚ) (j3 : Fin 4) (j2 : Fin 3)
    (j1 : Fin 2) (h : isDark val t = false) :
    generatePatterns val n ⟨t, j3, j2, j1⟩ =
      lightPatterns n ((perm j3 j2 j1).getD 0 0) ((perm j3 j2 j1).getD 1 0) := by
  simp [generatePatterns, h]

/-- Intensity 0 is classified dark under the draw `t = 0`
(threshold `128 + (0·60 − 30) = 98`). -/
theorem isDark_zero : isDark 0 0 = true := by
  simp only [isDark, decide_eq_true_eq, threshold]
  norm_num

/-- Intensity 255 is classified light under the draw `t = 0`. -/
theorem isDark_max : isDark 255 0 = false := by
  simp only [isDark, decide_eq_false_iff_not, threshold]
  norm_num

/-! ### Claims about the Pattern Generator -/

/-- C2: for every channel intensity, every randomness draw, every
`n ∈ {2,3,4}` and every share `s < n`, the ink pattern produced by
`generatePatterns` has 4 bits of which exactly 2 are set, in both the
light and the dark classification. -/
theorem claim2_ink_count (val : ℚ) (r : Draws) (n s : ℕ)
    (hn : n = 2 ∨ n = 3 ∨ n = 4) (hs : s < n) :
    ((generatePatterns val n r).getD s []).length = 4 ∧
    ((generatePatterns val n r).getD s []).count 1 = 2 := by
  obtain ⟨t, j3, j2, j1⟩ := r
  cases hd : isDark val t with
  | true =>
    rw [generatePatterns_dark val n t j3 j2 j1 hd]
    rcases hn with h | h | h <;> subst h <;> interval_cases s <;>
      · revert j3 j2 j1; decide
  | false =>
    rw [generatePatterns_light val n t j3 j2 j1 hd]
    rcases hn with h | h | h <;> subst h <;> interval_cases s <;>
      · revert j3 j2 j1; decide

theorem claim2_witness :
    ((2 : ℕ) = 2 ∨ (2 : ℕ) = 3 ∨ (2 : ℕ) = 4) ∧ (0 : ℕ) < 2 ∧
    (((generatePatterns 0 2 ⟨0, 0, 0, 0⟩).getD 0 []).length = 4 ∧
      ((generatePatterns 0 2 ⟨0, 0, 0, 0⟩).getD 0 []).count 1 = 2) :=
  ⟨Or.inl rfl, by decide, claim2_ink_count 0 ⟨0, 0, 0, 0⟩ 2 0 (Or.inl rfl) (by decide)⟩

/-- The union of the ink positions of a pattern matrix covers a slot. -/
def coversSlot (pats : List (List ℕ)) (slot : ℕ) : Prop :=
  (pats.any fun pat => pat.getD slot 0 == 1) = true

/-- C3: for a dark-classified channel and `n ∈ {2,3,4}`, every pattern is a
4-slot vector and the union of ink positions across the `n` patterns covers
every slot of `{0,1,2,3}`. -/
theorem claim3_dark_coverage (val : ℚ) (r : Draws) (n : ℕ)
    (hd : isDark val r.t = true) (hn : n = 2 ∨ n = 3 ∨ n = 4) :
    (∀ pat ∈ generatePatterns val n r, pat.length = 4) ∧
      (∀ slot < 4, coversSlot (generatePatterns val n r) slot) := by
  obtain ⟨t, j3, j2, j1⟩ := r
  have hd2 : isDark val t = true := hd
  clear hd
  rw [generatePatterns_dark val n t j3 j2 j1 hd2]
  clear hd2
  rcases hn with h | h | h <;> subst h <;>
    · constructor
      · revert j3 j2 j1; decide
      · unfold coversSlot; revert j3 j2 j1; decide

theorem claim3_witness :
    isDark 0 0 = true ∧
    ((∀ pat ∈ generatePatterns 0 2 ⟨0, 0, 0, 0⟩, pat.length = 4) ∧
      (∀ slot < 4, coversSlot (generatePatterns 0 2 ⟨0, 0, 0, 0⟩) slot)) :=
  ⟨isDark_zero, claim3_dark_coverage 0 ⟨0, 0, 0, 0⟩ 2 isDark_zero (Or.inl rfl)⟩

/-- C4: for a light-classified channel, all `n` patterns are bit-identical,
and the ink of each is exactly at the permuted positions `p[0]` and `p[1]`. -/
theorem claim4_light_uniformity (val : ℚ) (r : Draws) (n : ℕ)
    (hd : isDark val r.t = false) :
    (∀ s < n, ∀ s' < n,
      (generatePatterns val n r).getD s [] = (generatePatterns val n r).getD s' []) ∧
    (∀ s < n, ∀ slot < 4,
      (((generatePatterns val n r).getD s []).getD slot 0 = 1 ↔
        (slot = (perm r.j3 r.j2 r.j1).getD 0 0 ∨
          slot = (perm r.j3 r.j2 r.j1).getD 1 0))) := by
  obtain ⟨t, j3, j2, j1⟩ := r
  have hd2 : isDark val t = false := hd
  clear hd
  rw [generatePatterns_light val n t j3 j2 j1 hd2]
  clear hd2
  simp only [lightPatterns, List.map_replicate]
  constructor
  · intro s hs s' hs'
    rw [getD_replicate _ _ hs, getD_replicate _ _ hs']
  · intro s hs slot hslot
    rw [getD_replicate _ _ hs]
    revert slot
    revert j3 j2 j1
    decide

theorem claim4_witness :
    isDark 255 0 = false ∧
    ((∀ s < 2, ∀ s' < 2,
      (generatePatterns 255 2 ⟨0, 0, 0, 0⟩).getD s [] =
        (generatePatterns 255 2 ⟨0, 0, 0, 0⟩).getD s' []) ∧
    (∀ s < 2, ∀ slot < 4,
      (((generatePatterns 255 2 ⟨0, 0, 0, 0⟩).getD s []).getD slot 0 = 1 ↔
        (slot = (perm 0 0 0).getD 0 0 ∨ slot = (perm 0 0 0).getD 1 0)))) :=
  ⟨isDark_max, claim4_light_uniformity 255 ⟨0, 0, 0, 0⟩ 2 isDark_max⟩

/-- The pattern matrix `pats` has ink for share `s` at slot `slot`. -/
def ink (pats : List (List ℕ)) (s slot : ℕ) : Prop :=
  (pats.getD s []).getD slot 0 = 1

/-- The covering design over the permuted positions, exactly as the dark
branch of `generatePatterns` enumerates it for `n = 2`, `n = 3`, `n = 4`. -/
def ringPairs (val : ℚ) (r : Draws) : Prop :=
  (∀ slot < 4,
    (ink (generatePatterns val 2 r) 0 slot ↔
      (slot = (perm r.j3 r.j2 r.j1).getD 0 0 ∨ slot = (perm r.j3 r.j2 r.j1).getD 1 0)) ∧
    (ink (generatePatterns val 2 r) 1 slot ↔
      (slot = (perm r.j3 r.j2 r.j1).getD 2 0 ∨ slot = (perm r.j3 r.j2 r.j1).getD 3 0))) ∧
  (∀ slot < 4,
    (ink (generatePatterns val 3 r) 0 slot ↔
      (slot = (perm r.j3 r.j2 r.j1).getD 0 0 ∨ slot = (perm r.j3 r.j2 r.j1).getD 1 0)) ∧
    (ink (generatePatterns val 3 r) 1 slot ↔
      (slot = (perm r.j3 r.j2 r.j1).getD 1 0 ∨ slot = (perm r.j3 r.j2 r.j1).getD 2 0)) ∧
    (ink (generatePatterns val 3 r) 2 slot ↔
      (slot = (perm r.j3 r.j2 r.j1).getD 2 0 ∨ slot = (perm r.j3 r.j2 r.j1).getD 3 0))) ∧
  (∀ slot < 4,
    (ink (generatePatterns val 4 r) 0 slot ↔
      (slot = (perm r.j3 r.j2 r.j1).getD 0 0 ∨ slot = (perm r.j3 r.j2 r.j1).getD 1 0)) ∧
    (ink (generatePatterns val 4 r) 1 slot ↔
      (slot = (perm r.j3 r.j2 r.j1).getD 1 0 ∨ slot = (perm r.j3 r.j2 r.j1).getD 2 0)) ∧
    (ink (generatePatterns val 4 r) 2 slot ↔
      (slot = (perm r.j3 r.j2 r.j1).getD 2 0 ∨ slot = (perm r.j3 r.j2 r.j1).getD 3 0)) ∧
    (ink (generatePatterns val 4 r) 3 slot ↔
      (slot = (perm r.j3 r.j2 r.j1).getD 3 0 ∨ slot = (perm r.j3 r.j2 r.j1).getD 0 0)))

/-- C5: for a dark-classified channel, the ink sets over the permuted
positions are exactly the covering design: for `n = 2` shares `{p0,p1}`,
`{p2,p3}`; for `n = 3` the adjacent pairs `{p0,p1}`, `{p1,p2}`, `{p2,p3}`;
for `n = 4` additionally `{p3,p0}`. -/
theorem claim5_covering_design (val : ℚ) (r : Draws) (hd : isDark val r.t = true) :
    ringPairs val r := by
  obtain ⟨t, j3, j2, j1⟩ := r
  have hd2 : isDark val t = true := hd
  clear hd
  unfold ringPairs ink
  dsimp only
  rw [generatePatterns_dark val 2 t j3 j2 j1 hd2,
    generatePatterns_dark val 3 t j3 j2 j1 hd2,
    generatePatterns_dark val 4 t j3 j2 j1 hd2]
  clear hd2
  revert j3 j2 j1
  decide

theorem claim5_witness : isDark 0 0 = true ∧ ringPairs 0 ⟨0, 0, 0, 0⟩ :=
  ⟨isDark_zero, claim5_covering_design 0 ⟨0, 0, 0, 0⟩ isDark_zero⟩

/-- C9: for `n > 4` and a dark-classified channel, `generatePatterns`
returns `n` patterns and every pattern at index 4 or greater is the
all-clear `[0,0,0,0]`, with 0 of 4 ink bits set. -/
theorem claim9_extra_shares_all_clear (val : ℚ) (r : Draws) (n : ℕ)
    (hn : 4 < n) (hd : isDark val r.t = true) :
    (generatePatterns val n r).length = n ∧
    ∀ s, 4 ≤ s → s < n →
      (generatePatterns val n r).getD s [] = [0, 0, 0, 0] ∧
      ((generatePatterns val n r).getD s []).count 1 = 0 := by
  obtain ⟨t, j3, j2, j1⟩ := r
  have hd2 : isDark val t = true := hd
  clear hd
  rw [generatePatterns_dark val n t j3 j2 j1 hd2]
  have hlen : (darkPatterns n (perm j3 j2 j1)).length = n := by
    unfold darkPatterns setInk
    split
    · omega
    · split <;> simp
  refine ⟨hlen, ?_⟩
  intro s h4 hsn
  have key : (darkPatterns n (perm j3 j2 j1)).getD s [] = [0, 0, 0, 0] := by
    unfold darkPatterns
    rw [if_neg (by omega), if_neg (by omega)]
    unfold setInk
    rw [getD_set_ne (by omega), getD_set_ne (by omega), getD_set_ne (by omega),
      getD_set_ne (by omega), getD_set_ne (by omega), getD_set_ne (by omega),
      getD_set_ne (by omega), getD_set_ne (by omega)]
    exact getD_replicate _ _ (by omega)
  rw [key]
  exact ⟨rfl, rfl⟩

theorem claim9_witness :
    4 < 5 ∧ isDark 0 0 = true ∧
    ((generatePatterns 0 5 ⟨0, 0, 0, 0⟩).length = 5 ∧
    ∀ s, 4 ≤ s → s < 5 →
      (generatePatterns 0 5 ⟨0, 0, 0, 0⟩).getD s [] = [0, 0, 0, 0] ∧
      ((generatePatterns 0 5 ⟨0, 0, 0, 0⟩).getD s []).count 1 = 0) :=
  ⟨by decide, isDark_zero,
    claim9_extra_shares_all_clear 0 ⟨0, 0, 0, 0⟩ 5 (by decide) isDark_zero⟩

/-! ### The Block Writer and the Channel Orchestrator -/

/-- A pixel buffer (`ImageData`): width, height and the flat RGBA byte
array, modelled as a total function from byte index to byte value
(`Uint8ClampedArray` buffers are zero-initialized, so unwritten indices
read 0; all values written by this program already lie in `0..255`). -/
structure Img where
  width : ℕ
  height : ℕ
  data : ℕ → ℕ

/-- Pointwise buffer write `data[k] = v`. -/
def upd (f : ℕ → ℕ) (k v : ℕ) : ℕ → ℕ :=
  fun j => if j = k then v else f j

/-- `targetIdx = ((y*2 + dy) * width + (x*2 + dx)) * 4`, the base byte index
of one subpixel of the 2×2 block of source pixel `(x, y)` in a share buffer
of row width `width`. -/
def targetIdx (width x y dx dy : ℕ) : ℕ :=
  ((y * 2 + dy) * width + (x * 2 + dx)) * 4

/-- The four subpixel offsets `(dx, dy, i)` of `writeBlock2x2`:
top-left, top-right, bottom-left, bottom-right. -/
def offsets : List (ℕ × ℕ × ℕ) := [(0, 0, 0), (1, 0, 1), (0, 1, 2), (1, 1, 3)]

/-- The body of the `offsets.forEach` of `writeBlock2x2`: writes the four
RGBA bytes of one subpixel slot. -/
def writeSlot (data : ℕ → ℕ) (x y width : ℕ) (pR pG pB : List ℕ)
    (transparent : Bool) (dx dy i : ℕ) : ℕ → ℕ :=
  let t := targetIdx width x y dx dy
  if transparent then
    upd (upd (upd (upd data t 0) (t + 1) 0) (t + 2) 0) (t + 3) 0
  else
    upd (upd (upd (upd data t ((1 - pR.getD i 0) * 255))
      (t + 1) ((1 - pG.getD i 0) * 255))
      (t + 2) ((1 - pB.getD i 0) * 255))
      (t + 3) 255

/-- `writeBlock2x2` of the source: writes one generated 2×2 pattern into the
output buffer, slot by slot. -/
def writeBlock2x2 (data : ℕ → ℕ) (x y width : ℕ) (pR pG pB : List ℕ)
    (transparent : Bool) : ℕ → ℕ :=
  offsets.foldl
    (fun d o => writeSlot d x y width pR pG pB transparent o.1 o.2.1 o.2.2) data

/-- The channel triple of source pixel `(x, y)`: `[r, g, b]` when `isColor`,
otherwise the luminance `0.299r + 0.587g + 0.114b` three times
(the RGBA bytes are read at `i = (y*width + x)*4`). -/
def pixelChannels (src : Img) (isColor : Bool) (y x : ℕ) : List ℚ :=
  let i := (y * src.width + x) * 4
  let r : ℕ := src.data i
  let g : ℕ := src.data (i + 1)
  let b : ℕ := src.data (i + 2)
  let lum : ℚ := 299 / 1000 * r + 587 / 1000 * g + 114 / 1000 * b
  if isColor then [(r : ℚ), (g : ℚ), (b : ℚ)] else [lum, lum, lum]

/-- The transparency test `a < 50` on the alpha byte of pixel `(x, y)`. -/
def pixelTransparent (src : Img) (y x : ℕ) : Bool :=
  src.data ((y * src.width + x) * 4 + 3) < 50

/-- The per-pixel body of the double loop of `generateVisualShares`: reads
the RGBA source pixel `(x, y)`, derives the channel triple, generates the
three channel pattern matrices, and writes one 2×2 block into each of the
`shareCount` share buffers. `rnd x y c` supplies the `Math.random()` draws
consumed by the `generatePatterns` call for channel `c` of pixel `(x, y)`. -/
def processPixel (src : Img) (shareCount : ℕ) (isColor : Bool)
    (rnd : ℕ → ℕ → ℕ → Draws) (y x : ℕ) (shares : List (ℕ → ℕ)) :
    List (ℕ → ℕ) :=
  let channels := pixelChannels src isColor y x
  let isTransparent := pixelTransparent src y x
  let patR := generatePatterns (channels.getD 0 0) shareCount (rnd x y 0)
  let patG := generatePatterns (channels.getD 1 0) shareCount (rnd x y 1)
  let patB := generatePatterns (channels.getD 2 0) shareCount (rnd x y 2)
  (List.range shareCount).foldl
    (fun sh s => sh.set s (writeBlock2x2 (sh.getD s (fun _ => 0)) x y
      (src.width * 2) (patR.getD s []) (patG.getD s []) (patB.getD s [])
      isTransparent)) shares

/-- The inner (`x`) loop of `generateVisualShares` for one scanline `y`. -/
def processRow (src : Img) (shareCount : ℕ) (isColor : Bool)
    (rnd : ℕ → ℕ → ℕ → Draws) (y : ℕ) (shares : List (ℕ → ℕ)) :
    List (ℕ → ℕ) :=
  (List.range src.width).foldl
    (fun sh x => processPixel src shareCount isColor rnd y x sh) shares

/-- `generateVisualShares` of the source: allocates `shareCount`
zero-initialized output buffers of dimensions `(2·width, 2·height)`,
processes every source pixel, and returns the buffers as `ImageData`. -/
def generateVisualShares (sourceData : Img) (shareCount : ℕ) (isColor : Bool)
    (rnd : ℕ → ℕ → ℕ → Draws) : List Img :=
  let outWidth := sourceData.width * 2
  let outHeight := sourceData.height * 2
  let sharesData : List (ℕ → ℕ) := List.replicate shareCount (fun _ => 0)
  ((List.range sourceData.height).foldl
    (fun sh y => processRow sourceData shareCount isColor rnd y sh)
    sharesData).map
    (fun data => { width := outWidth, height := outHeight, data := data })

/-! ### Share-count and dimension facts -/

theorem processPixel_length (src : Img) (n : ℕ) (c : Bool)
    (rnd : ℕ → ℕ → ℕ → Draws) (y x : ℕ) (shares : List (ℕ → ℕ)) :
    (processPixel src n c rnd y x shares).length = shares.length := by
  unfold processPixel
  apply foldl_inv (fun a => a.length = shares.length) _ _ _ shares rfl
  intro a b _ ha
  rw [List.length_set]
  exact ha

theorem processRow_length (src : Img) (n : ℕ) (c : Bool)
    (rnd : ℕ → ℕ → ℕ → Draws) (y : ℕ) (shares : List (ℕ → ℕ)) :
    (processRow src n c rnd y shares).length = shares.length := by
  unfold processRow
  apply foldl_inv (fun a => a.length = shares.length) _ _ _ shares rfl
  intro a b _ ha
  rw [processPixel_length]
  exact ha

theorem gvs_length (src : Img) (n : ℕ) (c : Bool) (rnd : ℕ → ℕ → ℕ → Draws) :
    (generateVisualShares src n c rnd).length = n := by
  unfold generateVisualShares
  rw [List.length_map]
  refine foldl_inv (fun (a : List (ℕ → ℕ)) => a.length = n) _ _ ?_ _ (List.length_replicate n _)
  intro a b _ ha
  rw [processRow_length]
  exact ha

theorem gvs_dims (src : Img) (n : ℕ) (c : Bool) (rnd : ℕ → ℕ → ℕ → Draws) :
    ∀ img ∈ generateVisualShares src n c rnd,
      img.width = src.width * 2 ∧ img.height = src.height * 2 := by
  intro img hmem
  unfold generateVisualShares at hmem
  obtain ⟨d, _, rfl⟩ := List.mem_map.mp hmem
  exact ⟨rfl, rfl⟩

/-- C7: for every input buffer and every accepted share count, the encoder
returns exactly `shareCount` buffers, each of dimensions
`(2·width, 2·height)`. -/
theorem claim7_dimension_law (src : Img) (n : ℕ) (c : Bool)
    (rnd : ℕ → ℕ → ℕ → Draws) (_hlo : 2 ≤ n) (_hhi : n ≤ 4) :
    (generateVisualShares src n c rnd).length = n ∧
    ∀ img ∈ generateVisualShares src n c rnd,
      img.width = 2 * src.width ∧ img.height = 2 * src.height := by
  refine ⟨gvs_length src n c rnd, fun img hmem => ?_⟩
  obtain ⟨hw, hh⟩ := gvs_dims src n c rnd img hmem
  exact ⟨by rw [hw, Nat.mul_comm], by rw [hh, Nat.mul_comm]⟩

/-- A 1×1 fully opaque white source image. -/
def whitePixelImg : Img := ⟨1, 1, fun _ => 255⟩

/-- A constant randomness oracle. -/
def constDraws : ℕ → ℕ → ℕ → Draws := fun _ _ _ => ⟨0, 0, 0, 0⟩

theorem claim7_witness :
    (2 ≤ 2 ∧ 2 ≤ 4) ∧
    ((generateVisualShares whitePixelImg 2 true constDraws).length = 2 ∧
    ∀ img ∈ generateVisualShares whitePixelImg 2 true constDraws,
      img.width = 2 * whitePixelImg.width ∧
      img.height = 2 * whitePixelImg.height) :=
  ⟨by decide, claim7_dimension_law whitePixelImg 2 true constDraws
    (by decide) (by decide)⟩

/-- C1: the claim fails on the code. `generateVisualShares` performs no
validation of `shareCount`: called with the out-of-range count 5 it
allocates and returns 5 share buffers instead of rejecting the request
(the spec flags this missing validation as a defect of the reference
implementation). -/
theorem claim1_no_rejection :
    (generateVisualShares whitePixelImg 5 true constDraws).length = 5 ∧
    ∀ img ∈ generateVisualShares whitePixelImg 5 true constDraws,
      img.width = 2 ∧ img.height = 2 := by
  refine ⟨gvs_length whitePixelImg 5 true constDraws, fun img hmem => ?_⟩
  obtain ⟨hw, hh⟩ := gvs_dims whitePixelImg 5 true constDraws img hmem
  exact ⟨hw, hh⟩

/-! ### Block Writer facts -/

theorem writeBlock2x2_eq (data : ℕ → ℕ) (x y w : ℕ) (pR pG pB : List ℕ) (tr : Bool) :
    writeBlock2x2 data x y w pR pG pB tr =
      writeSlot (writeSlot (writeSlot (writeSlot data x y w pR pG pB tr 0 0 0)
        x y w pR pG pB tr 1 0 1) x y w pR pG pB tr 0 1 2) x y w pR pG pB tr 1 1 3 :=
  rfl

theorem writeSlot_transparent (data : ℕ → ℕ) (x y w : ℕ) (pR pG pB : List ℕ)
    (dx dy i : ℕ) :
    writeSlot data x y w pR pG pB true dx dy i =
      upd (upd (upd (upd data (targetIdx w x y dx dy) 0)
        (targetIdx w x y dx dy + 1) 0)
        (targetIdx w x y dx dy + 2) 0)
        (targetIdx w x y dx dy + 3) 0 :=
  rfl

theorem writeSlot_opaque_eq (data : ℕ → ℕ) (x y w : ℕ) (pR pG pB : List ℕ)
    (dx dy i : ℕ) :
    writeSlot data x y w pR pG pB false dx dy i =
      upd (upd (upd (upd data (targetIdx w x y dx dy) ((1 - pR.getD i 0) * 255))
        (targetIdx w x y dx dy + 1) ((1 - pG.getD i 0) * 255))
        (targetIdx w x y dx dy + 2) ((1 - pB.getD i 0) * 255))
        (targetIdx w x y dx dy + 3) 255 :=
  rfl

/-- A transparent slot write stores 0 in the slot's 4 bytes. -/
theorem writeSlot_transparent_at (data : ℕ → ℕ) (x y w : ℕ) (pR pG pB : List ℕ)
    (dx dy i c : ℕ) (hc : c < 4) :
    writeSlot data x y w pR pG pB true dx dy i (targetIdx w x y dx dy + c) = 0 := by
  rw [writeSlot_transparent]
  generalize targetIdx w x y dx dy = t
  unfold upd
  interval_cases c <;> split_ifs <;> first | rfl | omega

/-- A transparent slot write cannot turn a 0 byte nonzero. -/
theorem writeSlot_transparent_zero (data : ℕ → ℕ) (x y w : ℕ)
    (pR pG pB : List ℕ) (dx dy i k : ℕ) (hk : data k = 0) :
    writeSlot data x y w pR pG pB true dx dy i k = 0 := by
  rw [writeSlot_transparent]
  unfold upd
  split_ifs <;> first | rfl | exact hk

/-- A transparent block write stores 0 in all 16 bytes of the 2×2 block. -/
theorem writeBlock2x2_transparent (data : ℕ → ℕ) (x y w : ℕ)
    (pR pG pB : List ℕ) (dx dy c : ℕ) (hdx : dx < 2) (hdy : dy < 2) (hc : c < 4) :
    writeBlock2x2 data x y w pR pG pB true (targetIdx w x y dx dy + c) = 0 := by
  rw [writeBlock2x2_eq]
  interval_cases dx <;> interval_cases dy
  · exact writeSlot_transparent_zero _ _ _ _ _ _ _ _ _ _ _
      (writeSlot_transparent_zero _ _ _ _ _ _ _ _ _ _ _
        (writeSlot_transparent_zero _ _ _ _ _ _ _ _ _ _ _
          (writeSlot_transparent_at _ _ _ _ _ _ _ _ _ _ _ hc)))
  · exact writeSlot_transparent_zero _ _ _ _ _ _ _ _ _ _ _
      (writeSlot_transparent_at _ _ _ _ _ _ _ _ _ _ _ hc)
  · exact writeSlot_transparent_zero _ _ _ _ _ _ _ _ _ _ _
      (writeSlot_transparent_zero _ _ _ _ _ _ _ _ _ _ _
        (writeSlot_transparent_at _ _ _ _ _ _ _ _ _ _ _ hc))
  · exact writeSlot_transparent_at _ _ _ _ _ _ _ _ _ _ _ hc

/-- A slot write leaves every byte outside its own 4 indices unchanged. -/
theorem writeSlot_frame (data : ℕ → ℕ) (x y w : ℕ) (pR pG pB : List ℕ)
    (tr : Bool) (dx dy i k : ℕ)
    (h0 : k ≠ targetIdx w x y dx dy) (h1 : k ≠ targetIdx w x y dx dy + 1)
    (h2 : k ≠ targetIdx w x y dx dy + 2) (h3 : k ≠ targetIdx w x y dx dy + 3) :
    writeSlot data x y w pR pG pB tr dx dy i k = data k := by
  cases tr
  · rw [writeSlot_opaque_eq]
    unfold upd
    simp [h0, h1, h2, h3]
  · rw [writeSlot_transparent]
    unfold upd
    simp [h0, h1, h2, h3]

theorem writeSlot_opaque_at0 (data : ℕ → ℕ) (x y w : ℕ) (pR pG pB : List ℕ)
    (dx dy i : ℕ) :
    writeSlot data x y w pR pG pB false dx dy i (targetIdx w x y dx dy) =
      (1 - pR.getD i 0) * 255 := by
  rw [writeSlot_opaque_eq]
  generalize targetIdx w x y dx dy = t
  simp only [upd]
  split_ifs <;> omega

theorem writeSlot_opaque_at1 (data : ℕ → ℕ) (x y w : ℕ) (pR pG pB : List ℕ)
    (dx dy i : ℕ) :
    writeSlot data x y w pR pG pB false dx dy i (targetIdx w x y dx dy + 1) =
      (1 - pG.getD i 0) * 255 := by
  rw [writeSlot_opaque_eq]
  generalize targetIdx w x y dx dy = t
  simp only [upd]
  split_ifs <;> omega

theorem writeSlot_opaque_at2 (data : ℕ → ℕ) (x y w : ℕ) (pR pG pB : List ℕ)
    (dx dy i : ℕ) :
    writeSlot data x y w pR pG pB false dx dy i (targetIdx w x y dx dy + 2) =
      (1 - pB.getD i 0) * 255 := by
  rw [writeSlot_opaque_eq]
  generalize targetIdx w x y dx dy = t
  simp only [upd]
  split_ifs <;> omega

theorem writeSlot_opaque_at3 (data : ℕ → ℕ) (x y w : ℕ) (pR pG pB : List ℕ)
    (dx dy i : ℕ) :
    writeSlot data x y w pR pG pB false dx dy i (targetIdx w x y dx dy + 3) =
      255 := by
  rw [writeSlot_opaque_eq]
  generalize targetIdx w x y dx dy = t
  simp only [upd]
  split_ifs <;> omega

/-- Distinct subpixel slots of the same block occupy disjoint byte ranges,
provided the block fits in the output row (`2x + 1 < w`). -/
theorem targetIdx_slot_ne (w x y dx dy dx' dy' c c' : ℕ) (hw : 2 * x + 1 < w)
    (hdx : dx < 2) (hdy : dy < 2) (hdx' : dx' < 2) (hdy' : dy' < 2)
    (hc : c < 4) (hc' : c' < 4) (hne : dx ≠ dx' ∨ dy ≠ dy') :
    targetIdx w x y dx dy + c ≠ targetIdx w x y dx' dy' + c' := by
  intro h
  unfold targetIdx at h
  have e1 : (y * 2 + 1) * w = y * 2 * w + w := by ring
  interval_cases dx <;> interval_cases dy <;> interval_cases dx' <;>
    interval_cases dy' <;>
    simp only [Nat.add_zero, e1] at h <;> omega


/-- A slot write does not touch the bytes of a different slot of the same
block. -/
theorem writeSlot_other_slot (d : ℕ → ℕ) (x y w : ℕ) (pR pG pB : List ℕ)
    (tr : Bool) (dx dy dx1 dy1 i1 c : ℕ) (hw : 2 * x + 1 < w)
    (hdx : dx < 2) (hdy : dy < 2) (h1 : dx1 < 2) (h2 : dy1 < 2) (hc : c < 4)
    (hne : dx ≠ dx1 ∨ dy ≠ dy1) :
    writeSlot d x y w pR pG pB tr dx1 dy1 i1 (targetIdx w x y dx dy + c) =
      d (targetIdx w x y dx dy + c) := by
  refine writeSlot_frame d x y w pR pG pB tr dx1 dy1 i1 _ ?_ ?_ ?_ ?_
  · have := targetIdx_slot_ne w x y dx dy dx1 dy1 c 0 hw hdx hdy h1 h2 hc
      (by omega) hne
    omega
  · exact targetIdx_slot_ne w x y dx dy dx1 dy1 c 1 hw hdx hdy h1 h2 hc
      (by omega) hne
  · exact targetIdx_slot_ne w x y dx dy dx1 dy1 c 2 hw hdx hdy h1 h2 hc
      (by omega) hne
  · exact targetIdx_slot_ne w x y dx dy dx1 dy1 c 3 hw hdx hdy h1 h2 hc
      (by omega) hne

theorem writeSlot_other_slot0 (d : ℕ → ℕ) (x y w : ℕ) (pR pG pB : List ℕ)
    (tr : Bool) (dx dy dx1 dy1 i1 : ℕ) (hw : 2 * x + 1 < w)
    (hdx : dx < 2) (hdy : dy < 2) (h1 : dx1 < 2) (h2 : dy1 < 2)
    (hne : dx ≠ dx1 ∨ dy ≠ dy1) :
    writeSlot d x y w pR pG pB tr dx1 dy1 i1 (targetIdx w x y dx dy) =
      d (targetIdx w x y dx dy) := by
  have := writeSlot_other_slot d x y w pR pG pB tr dx dy dx1 dy1 i1 0 hw
    hdx hdy h1 h2 (by omega) hne
  simpa using this

/-- C8: for a non-transparent pixel, the Block Writer stores, in every
subpixel slot `(dx, dy, i)` of the 2×2 block, the bytes
`R = (1 − inkR[i])·255`, `G = (1 − inkG[i])·255`, `B = (1 − inkB[i])·255`,
`A = 255`: ink bit 1 maps to byte 0 and ink bit 0 maps to byte 255. -/
theorem claim8_opaque_write (data : ℕ → ℕ) (x y w : ℕ) (pR pG pB : List ℕ)
    (hw : 2 * x + 1 < w) (dx dy i : ℕ) (ho : (dx, dy, i) ∈ offsets) :
    writeBlock2x2 data x y w pR pG pB false (targetIdx w x y dx dy) =
      (1 - pR.getD i 0) * 255 ∧
    writeBlock2x2 data x y w pR pG pB false (targetIdx w x y dx dy + 1) =
      (1 - pG.getD i 0) * 255 ∧
    writeBlock2x2 data x y w pR pG pB false (targetIdx w x y dx dy + 2) =
      (1 - pB.getD i 0) * 255 ∧
    writeBlock2x2 data x y w pR pG pB false (targetIdx w x y dx dy + 3) =
      255 := by
  simp only [offsets, List.mem_cons, List.not_mem_nil, or_false,
    Prod.mk.injEq] at ho
  rw [writeBlock2x2_eq]
  rcases ho with ⟨rfl, rfl, rfl⟩ | ⟨rfl, rfl, rfl⟩ | ⟨rfl, rfl, rfl⟩ |
    ⟨rfl, rfl, rfl⟩
  · refine ⟨?_, ?_, ?_, ?_⟩
    · rw [writeSlot_other_slot0 _ _ _ _ _ _ _ _ 0 0 1 1 3 hw (by omega)
          (by omega) (by omega) (by omega) (by omega),
        writeSlot_other_slot0 _ _ _ _ _ _ _ _ 0 0 0 1 2 hw (by omega)
          (by omega) (by omega) (by omega) (by omega),
        writeSlot_other_slot0 _ _ _ _ _ _ _ _ 0 0 1 0 1 hw (by omega)
          (by omega) (by omega) (by omega) (by omega),
        writeSlot_opaque_at0]
    · rw [writeSlot_other_slot _ _ _ _ _ _ _ _ 0 0 1 1 3 1 hw (by omega)
          (by omega) (by omega) (by omega) (by omega) (by omega),
        writeSlot_other_slot _ _ _ _ _ _ _ _ 0 0 0 1 2 1 hw (by omega)
          (by omega) (by omega) (by omega) (by omega) (by omega),
        writeSlot_other_slot _ _ _ _ _ _ _ _ 0 0 1 0 1 1 hw (by omega)
          (by omega) (by omega) (by omega) (by omega) (by omega),
        writeSlot_opaque_at1]
    · rw [writeSlot_other_slot _ _ _ _ _ _ _ _ 0 0 1 1 3 2 hw (by omega)
          (by omega) (by omega) (by omega) (by omega) (by omega),
        writeSlot_other_slot _ _ _ _ _ _ _ _ 0 0 0 1 2 2 hw (by omega)
          (by omega) (by omega) (by omega) (by omega) (by omega),
        writeSlot_other_slot _ _ _ _ _ _ _ _ 0 0 1 0 1 2 hw (by omega)
          (by omega) (by omega) (by omega) (by omega) (by omega),
        writeSlot_opaque_at2]
    · rw [writeSlot_other_slot _ _ _ _ _ _ _ _ 0 0 1 1 3 3 hw (by omega)
          (by omega) (by omega) (by omega) (by omega) (by omega),
        writeSlot_other_slot _ _ _ _ _ _ _ _ 0 0 0 1 2 3 hw (by omega)
          (by omega) (by omega) (by omega) (by omega) (by omega),
        writeSlot_other_slot _ _ _ _ _ _ _ _ 0 0 1 0 1 3 hw (by omega)
          (by omega) (by omega) (by omega) (by omega) (by omega),
        writeSlot_opaque_at3]
  · refine ⟨?_, ?_, ?_, ?_⟩
    · rw [writeSlot_other_slot0 _ _ _ _ _ _ _ _ 1 0 1 1 3 hw (by omega)
          (by omega) (by omega) (by omega) (by omega),
        writeSlot_other_slot0 _ _ _ _ _ _ _ _ 1 0 0 1 2 hw (by omega)
          (by omega) (by omega) (by omega) (by omega),
        writeSlot_opaque_at0]
    · rw [writeSlot_other_slot _ _ _ _ _ _ _ _ 1 0 1 1 3 1 hw (by omega)
          (by omega) (by omega) (by omega) (by omega) (by omega),
        writeSlot_other_slot _ _ _ _ _ _ _ _ 1 0 0 1 2 1 hw (by omega)
          (by omega) (by omega) (by omega) (by omega) (by omega),
        writeSlot_opaque_at1]
    · rw [writeSlot_other_slot _ _ _ _ _ _ _ _ 1 0 1 1 3 2 hw (by omega)
          (by omega) (by omega) (by omega) (by omega) (by omega),
        writeSlot_other_slot _ _ _ _ _ _ _ _ 1 0 0 1 2 2 hw (by omega)
          (by omega) (by omega) (by omega) (by omega) (by omega),
        writeSlot_opaque_at2]
    · rw [writeSlot_other_slot _ _ _ _ _ _ _ _ 1 0 1 1 3 3 hw (by omega)
          (by omega) (by omega) (by omega) (by omega) (by omega),
        writeSlot_other_slot _ _ _ _ _ _ _ _ 1 0 0 1 2 3 hw (by omega)
          (by omega) (by omega) (by omega) (by omega) (by omega),
        writeSlot_opaque_at3]
  · refine ⟨?_, ?_, ?_, ?_⟩
    · rw [writeSlot_other_slot0 _ _ _ _ _ _ _ _ 0 1 1 1 3 hw (by omega)
          (by omega) (by omega) (by omega) (by omega),
        writeSlot_opaque_at0]
    · rw [writeSlot_other_slot _ _ _ _ _ _ _ _ 0 1 1 1 3 1 hw (by omega)
          (by omega) (by omega) (by omega) (by omega) (by omega),
        writeSlot_opaque_at1]
    · rw [writeSlot_other_slot _ _ _ _ _ _ _ _ 0 1 1 1 3 2 hw (by omega)
          (by omega) (by omega) (by omega) (by omega) (by omega),
        writeSlot_opaque_at2]
    · rw [writeSlot_other_slot _ _ _ _ _ _ _ _ 0 1 1 1 3 3 hw (by omega)
          (by omega) (by omega) (by omega) (by omega) (by omega),
        writeSlot_opaque_at3]
  · exact ⟨writeSlot_opaque_at0 _ _ _ _ _ _ _ _ _ _,
      writeSlot_opaque_at1 _ _ _ _ _ _ _ _ _ _,
      writeSlot_opaque_at2 _ _ _ _ _ _ _ _ _ _,
      writeSlot_opaque_at3 _ _ _ _ _ _ _ _ _ _⟩

theorem claim8_witness :
    (2 * 0 + 1 < 2 ∧ ((0, 0, 0) : ℕ × ℕ × ℕ) ∈ offsets) ∧
    (writeBlock2x2 (fun _ => 7) 0 0 2 [1, 0, 0, 0] [0, 1, 0, 0] [0, 0, 1, 0]
        false (targetIdx 2 0 0 0 0) = (1 - [1, 0, 0, 0].getD 0 0) * 255 ∧
      writeBlock2x2 (fun _ => 7) 0 0 2 [1, 0, 0, 0] [0, 1, 0, 0] [0, 0, 1, 0]
        false (targetIdx 2 0 0 0 0 + 1) = (1 - [0, 1, 0, 0].getD 0 0) * 255 ∧
      writeBlock2x2 (fun _ => 7) 0 0 2 [1, 0, 0, 0] [0, 1, 0, 0] [0, 0, 1, 0]
        false (targetIdx 2 0 0 0 0 + 2) = (1 - [0, 0, 1, 0].getD 0 0) * 255 ∧
      writeBlock2x2 (fun _ => 7) 0 0 2 [1, 0, 0, 0] [0, 1, 0, 0] [0, 0, 1, 0]
        false (targetIdx 2 0 0 0 0 + 3) = 255) :=
  ⟨⟨by decide, by decide⟩,
    claim8_opaque_write (fun _ => 7) 0 0 2 [1, 0, 0, 0] [0, 1, 0, 0]
      [0, 0, 1, 0] (by decide) 0 0 0 (by decide)⟩

/-! ### Disjointness of blocks of distinct pixels -/

theorem mul_add_inj (W A B r s : ℕ) (hW : 0 < W) (hr : r < W) (hs : s < W)
    (h : A * W + r = B * W + s) : A = B ∧ r = s := by
  have hA : (A * W + r) / W = A := by
    rw [Nat.add_comm, Nat.add_mul_div_right _ _ hW, Nat.div_eq_of_lt hr,
      Nat.zero_add]
  have hB : (B * W + s) / W = B := by
    rw [Nat.add_comm, Nat.add_mul_div_right _ _ hW, Nat.div_eq_of_lt hs,
      Nat.zero_add]
  have hab : A = B := by rw [← hA, ← hB, h]
  refine ⟨hab, ?_⟩
  rw [hab] at h
  omega

/-- Blocks of distinct source pixels occupy disjoint byte ranges in a share
buffer of row width `W * 2`. -/
theorem targetIdx_pixel_ne (W x y x1 y1 dx dy dx1 dy1 c c1 : ℕ)
    (hx : x < W) (hx1 : x1 < W) (hdx : dx < 2) (hdy : dy < 2)
    (hdx1 : dx1 < 2) (hdy1 : dy1 < 2) (hc : c < 4) (hc1 : c1 < 4)
    (hne : x ≠ x1 ∨ y ≠ y1) :
    targetIdx (W * 2) x y dx dy + c ≠ targetIdx (W * 2) x1 y1 dx1 dy1 + c1 := by
  intro h
  unfold targetIdx at h
  have hinner : (y * 2 + dy) * (W * 2) + (x * 2 + dx) =
      (y1 * 2 + dy1) * (W * 2) + (x1 * 2 + dx1) ∧ c = c1 := by
    generalize (y * 2 + dy) * (W * 2) = K at h ⊢
    generalize (y1 * 2 + dy1) * (W * 2) = K1 at h ⊢
    omega
  have hsplit := mul_add_inj (W * 2) (y * 2 + dy) (y1 * 2 + dy1)
    (x * 2 + dx) (x1 * 2 + dx1) (by omega) (by omega) (by omega) hinner.1
  omega

/-- A block write leaves every byte outside its 16 block indices
unchanged. -/
theorem writeBlock2x2_frame (d : ℕ → ℕ) (x1 y1 w : ℕ) (pR pG pB : List ℕ)
    (tr : Bool) (k : ℕ)
    (hk : ∀ dx dy c, dx < 2 → dy < 2 → c < 4 →
      k ≠ targetIdx w x1 y1 dx dy + c) :
    writeBlock2x2 d x1 y1 w pR pG pB tr k = d k := by
  have hk0 : ∀ dx dy, dx < 2 → dy < 2 → k ≠ targetIdx w x1 y1 dx dy := by
    intro dx dy h1 h2
    have := hk dx dy 0 h1 h2 (by omega)
    omega
  rw [writeBlock2x2_eq,
    writeSlot_frame _ _ _ _ _ _ _ _ _ _ _ _
      (hk0 1 1 (by omega) (by omega))
      (hk 1 1 1 (by omega) (by omega) (by omega))
      (hk 1 1 2 (by omega) (by omega) (by omega))
      (hk 1 1 3 (by omega) (by omega) (by omega)),
    writeSlot_frame _ _ _ _ _ _ _ _ _ _ _ _
      (hk0 0 1 (by omega) (by omega))
      (hk 0 1 1 (by omega) (by omega) (by omega))
      (hk 0 1 2 (by omega) (by omega) (by omega))
      (hk 0 1 3 (by omega) (by omega) (by omega)),
    writeSlot_frame _ _ _ _ _ _ _ _ _ _ _ _
      (hk0 1 0 (by omega) (by omega))
      (hk 1 0 1 (by omega) (by omega) (by omega))
      (hk 1 0 2 (by omega) (by omega) (by omega))
      (hk 1 0 3 (by omega) (by omega) (by omega)),
    writeSlot_frame _ _ _ _ _ _ _ _ _ _ _ _
      (hk0 0 0 (by omega) (by omega))
      (hk 0 0 1 (by omega) (by omega) (by omega))
      (hk 0 0 2 (by omega) (by omega) (by omega))
      (hk 0 0 3 (by omega) (by omega) (by omega))]

/-! ### The per-share write loop -/

theorem range_foldl_set_length {α : Type} (d : α) (F : ℕ → α → α) (n : ℕ)
    (l : List α) :
    ((List.range n).foldl (fun sh k => sh.set k (F k (sh.getD k d))) l).length =
      l.length := by
  refine foldl_inv (fun (a : List α) => a.length = l.length) _ _ ?_ l rfl
  intro a b _ ha
  rw [List.length_set]
  exact ha

/-- The loop `for s in 0..n-1: sh[s] := F s sh[s]` rewrites each in-bounds
entry below `n` once and leaves everything else unchanged. -/
theorem range_foldl_set_getD {α : Type} (d : α) (F : ℕ → α → α) :
    ∀ (n : ℕ) (l : List α) (s : ℕ),
      ((List.range n).foldl (fun sh k => sh.set k (F k (sh.getD k d))) l).getD s d =
        if s < n ∧ s < l.length then F s (l.getD s d) else l.getD s d := by
  intro n
  induction n with
  | zero =>
    intro l s
    simp
  | succ n ih =>
    intro l s
    rw [List.range_succ, List.foldl_append, List.foldl_cons, List.foldl_nil]
    rw [getD_set, range_foldl_set_length, ih l n, ih l s]
    split_ifs <;> first | rfl | omega | simp_all

/-- Entry `s` of the share list after `processPixel`. -/
theorem processPixel_getD (src : Img) (n : ℕ) (col : Bool)
    (rnd : ℕ → ℕ → ℕ → Draws) (y x : ℕ) (shares : List (ℕ → ℕ)) (s : ℕ) :
    (processPixel src n col rnd y x shares).getD s (fun _ => 0) =
      if s < n ∧ s < shares.length then
        writeBlock2x2 (shares.getD s (fun _ => 0)) x y (src.width * 2)
          ((generatePatterns ((pixelChannels src col y x).getD 0 0) n
            (rnd x y 0)).getD s [])
          ((generatePatterns ((pixelChannels src col y x).getD 1 0) n
            (rnd x y 1)).getD s [])
          ((generatePatterns ((pixelChannels src col y x).getD 2 0) n
            (rnd x y 2)).getD s [])
          (pixelTransparent src y x)
      else shares.getD s (fun _ => 0) := by
  unfold processPixel
  exact range_foldl_set_getD (fun _ => 0)
    (fun k b => writeBlock2x2 b x y (src.width * 2)
      ((generatePatterns ((pixelChannels src col y x).getD 0 0) n
        (rnd x y 0)).getD k [])
      ((generatePatterns ((pixelChannels src col y x).getD 1 0) n
        (rnd x y 1)).getD k [])
      ((generatePatterns ((pixelChannels src col y x).getD 2 0) n
        (rnd x y 2)).getD k [])
      (pixelTransparent src y x)) n shares s

/-! ### Transparency pass-through -/

/-- All 16 bytes of the 2×2 block of source pixel `(x, y)` are 0 in every
share of the list. -/
def blockZero (src : Img) (n x y : ℕ) (sh : List (ℕ → ℕ)) : Prop :=
  ∀ s < n, ∀ dx < 2, ∀ dy < 2, ∀ c < 4,
    (sh.getD s (fun _ => 0)) (targetIdx (src.width * 2) x y dx dy + c) = 0

/-- Processing a transparent pixel zeroes its own block in every share,
whatever the incoming state. -/
theorem processPixel_establishes_blockZero (src : Img) (n : ℕ) (col : Bool)
    (rnd : ℕ → ℕ → ℕ → Draws) (x y : ℕ) (shares : List (ℕ → ℕ))
    (ha : src.data ((y * src.width + x) * 4 + 3) < 50) :
    blockZero src n x y (processPixel src n col rnd y x shares) := by
  intro s hs dx hdx dy hdy c hc
  rw [processPixel_getD]
  have htr : pixelTransparent src y x = true := by
    simp [pixelTransparent, ha]
  by_cases h : s < n ∧ s < shares.length
  · rw [if_pos h, htr]
    exact writeBlock2x2_transparent _ _ _ _ _ _ _ _ _ _ hdx hdy hc
  · rw [if_neg h]
    have hsl : shares.length ≤ s := by omega
    rw [List.getD_eq_default _ _ hsl]

/-- Processing a different pixel leaves the block of `(x, y)` untouched. -/
theorem processPixel_preserves_blockZero (src : Img) (n : ℕ) (col : Bool)
    (rnd : ℕ → ℕ → ℕ → Draws) (x y x1 y1 : ℕ)
    (hx : x < src.width) (hx1 : x1 < src.width) (hne : x1 ≠ x ∨ y1 ≠ y)
    (shares : List (ℕ → ℕ)) (hz : blockZero src n x y shares) :
    blockZero src n x y (processPixel src n col rnd y1 x1 shares) := by
  intro s hs dx hdx dy hdy c hc
  rw [processPixel_getD]
  by_cases h : s < n ∧ s < shares.length
  · rw [if_pos h]
    rw [writeBlock2x2_frame _ _ _ _ _ _ _ _ _ ?_]
    · exact hz s hs dx hdx dy hdy c hc
    · intro dx1 dy1 c1 h1 h2 h3
      exact targetIdx_pixel_ne src.width x y x1 y1 dx dy dx1 dy1 c c1
        hx hx1 hdx hdy h1 h2 hc h3 (by omega)
  · rw [if_neg h]
    exact hz s hs dx hdx dy hdy c hc

theorem processRow_establishes_blockZero (src : Img) (n : ℕ) (col : Bool)
    (rnd : ℕ → ℕ → ℕ → Draws) (x y : ℕ) (shares : List (ℕ → ℕ))
    (hx : x < src.width)
    (ha : src.data ((y * src.width + x) * 4 + 3) < 50) :
    blockZero src n x y (processRow src n col rnd y shares) := by
  unfold processRow
  refine foldl_establish (blockZero src n x y) _ x ?_ _
    (List.mem_range.mpr hx) ?_ shares
  · intro a
    exact processPixel_establishes_blockZero src n col rnd x y a ha
  · intro a k hk hkx hz
    exact processPixel_preserves_blockZero src n col rnd x y k y hx
      (List.mem_range.mp hk) (Or.inl hkx) a hz

theorem processRow_preserves_blockZero (src : Img) (n : ℕ) (col : Bool)
    (rnd : ℕ → ℕ → ℕ → Draws) (x y y1 : ℕ) (shares : List (ℕ → ℕ))
    (hx : x < src.width) (hne : y1 ≠ y) (hz : blockZero src n x y shares) :
    blockZero src n x y (processRow src n col rnd y1 shares) := by
  unfold processRow
  refine foldl_inv (blockZero src n x y) _ _ ?_ shares hz
  intro a k hk hz1
  exact processPixel_preserves_blockZero src n col rnd x y k y1 hx
    (List.mem_range.mp hk) (Or.inr hne) a hz1

/-- C6: for every source pixel with alpha below 50, every byte of the
corresponding 2×2 block of every returned share is written fully
transparent `(0,0,0,0)`, regardless of the pixel's RGB values and of the
generated ink patterns. -/
theorem claim6_transparency (src : Img) (n : ℕ) (col : Bool)
    (rnd : ℕ → ℕ → ℕ → Draws) (x y : ℕ)
    (hx : x < src.width) (hy : y < src.height)
    (ha : src.data ((y * src.width + x) * 4 + 3) < 50) :
    ∀ img ∈ generateVisualShares src n col rnd, ∀ dx < 2, ∀ dy < 2, ∀ c < 4,
      img.data (targetIdx (src.width * 2) x y dx dy + c) = 0 := by
  intro img hmem dx hdx dy hdy c hc
  simp only [generateVisualShares] at hmem
  obtain ⟨d, hd, rfl⟩ := List.mem_map.mp hmem
  have hz : blockZero src n x y
      ((List.range src.height).foldl
        (fun sh y1 => processRow src n col rnd y1 sh)
        (List.replicate n (fun _ => 0))) := by
    refine foldl_establish (blockZero src n x y) _ y ?_ _
      (List.mem_range.mpr hy) ?_ _
    · intro a
      exact processRow_establishes_blockZero src n col rnd x y a hx ha
    · intro a k _ hky hz1
      exact processRow_preserves_blockZero src n col rnd x y k a hx hky hz1
  obtain ⟨s, hslen, rfl⟩ := List.mem_iff_getElem.mp hd
  have hlen : ((List.range src.height).foldl
      (fun sh y1 => processRow src n col rnd y1 sh)
      (List.replicate n (fun _ => 0))).length = n := by
    refine foldl_inv (fun (a : List (ℕ → ℕ)) => a.length = n) _ _ ?_ _
      (List.length_replicate n _)
    intro a b _ hb
    rw [processRow_length]
    exact hb
  have := hz s (by omega) dx hdx dy hdy c hc
  rw [List.getD_eq_getElem _ _ hslen] at this
  exact this

/-- A 1×1 source image whose only pixel has alpha 0. -/
def alphaZeroImg : Img := ⟨1, 1, fun _ => 0⟩

theorem claim6_witness :
    (0 < alphaZeroImg.width ∧ 0 < alphaZeroImg.height ∧
      alphaZeroImg.data ((0 * alphaZeroImg.width + 0) * 4 + 3) < 50) ∧
    (∀ img ∈ generateVisualShares alphaZeroImg 3 true constDraws,
      ∀ dx < 2, ∀ dy < 2, ∀ c < 4,
        img.data (targetIdx (alphaZeroImg.width * 2) 0 0 dx dy + c) = 0) :=
  ⟨⟨by decide, by decide, by decide⟩,
    claim6_transparency alphaZeroImg 3 true constDraws 0 0 (by decide)
      (by decide) (by decide)⟩

/-! ### Output byte discipline -/

/-- Every RGBA quadruple of the buffer is fully transparent `(0,0,0,0)` or
fully opaque (`A = 255`) with each color byte exactly 0 or 255. -/
def quadOK (d : ℕ → ℕ) : Prop :=
  ∀ m, (d (m * 4) = 0 ∧ d (m * 4 + 1) = 0 ∧ d (m * 4 + 2) = 0 ∧
      d (m * 4 + 3) = 0) ∨
    (d (m * 4 + 3) = 255 ∧ (d (m * 4) = 0 ∨ d (m * 4) = 255) ∧
      (d (m * 4 + 1) = 0 ∨ d (m * 4 + 1) = 255) ∧
      (d (m * 4 + 2) = 0 ∨ d (m * 4 + 2) = 255))

theorem quadOK_zero : quadOK (fun _ => 0) :=
  fun _ => Or.inl ⟨rfl, rfl, rfl, rfl⟩

/-- Evaluating an aligned 4-byte write at the bytes of quadruple `m`. -/
theorem quad_write_eval (data : ℕ → ℕ) (T v0 v1 v2 v3 m : ℕ) :
    ((upd (upd (upd (upd data (T * 4) v0) (T * 4 + 1) v1) (T * 4 + 2) v2)
        (T * 4 + 3) v3) (m * 4) = if m = T then v0 else data (m * 4)) ∧
    ((upd (upd (upd (upd data (T * 4) v0) (T * 4 + 1) v1) (T * 4 + 2) v2)
        (T * 4 + 3) v3) (m * 4 + 1) = if m = T then v1 else data (m * 4 + 1)) ∧
    ((upd (upd (upd (upd data (T * 4) v0) (T * 4 + 1) v1) (T * 4 + 2) v2)
        (T * 4 + 3) v3) (m * 4 + 2) = if m = T then v2 else data (m * 4 + 2)) ∧
    ((upd (upd (upd (upd data (T * 4) v0) (T * 4 + 1) v1) (T * 4 + 2) v2)
        (T * 4 + 3) v3) (m * 4 + 3) = if m = T then v3 else data (m * 4 + 3)) := by
  refine ⟨?_, ?_, ?_, ?_⟩ <;>
    · simp only [upd]
      split_ifs <;> omega

/-- A slot write preserves the byte discipline. -/
theorem writeSlot_quadOK (data : ℕ → ℕ) (x y w : ℕ) (pR pG pB : List ℕ)
    (tr : Bool) (dx dy i : ℕ) (h : quadOK data) :
    quadOK (writeSlot data x y w pR pG pB tr dx dy i) := by
  intro m
  have ht : targetIdx w x y dx dy = ((y * 2 + dy) * w + (x * 2 + dx)) * 4 := rfl
  cases tr
  · rw [writeSlot_opaque_eq, ht]
    generalize (y * 2 + dy) * w + (x * 2 + dx) = T
    have ev := quad_write_eval data T ((1 - pR.getD i 0) * 255)
      ((1 - pG.getD i 0) * 255) ((1 - pB.getD i 0) * 255) 255 m
    rw [ev.1, ev.2.1, ev.2.2.1, ev.2.2.2]
    by_cases hm : m = T
    · rw [if_pos hm, if_pos hm, if_pos hm, if_pos hm]
      omega
    · rw [if_neg hm, if_neg hm, if_neg hm, if_neg hm]
      exact h m
  · rw [writeSlot_transparent, ht]
    generalize (y * 2 + dy) * w + (x * 2 + dx) = T
    have ev := quad_write_eval data T 0 0 0 0 m
    rw [ev.1, ev.2.1, ev.2.2.1, ev.2.2.2]
    by_cases hm : m = T
    · rw [if_pos hm, if_pos hm, if_pos hm, if_pos hm]
      omega
    · rw [if_neg hm, if_neg hm, if_neg hm, if_neg hm]
      exact h m

/-- A block write preserves the byte discipline. -/
theorem writeBlock2x2_quadOK (data : ℕ → ℕ) (x y w : ℕ) (pR pG pB : List ℕ)
    (tr : Bool) (h : quadOK data) :
    quadOK (writeBlock2x2 data x y w pR pG pB tr) := by
  rw [writeBlock2x2_eq]
  exact writeSlot_quadOK _ _ _ _ _ _ _ _ _ _ _
    (writeSlot_quadOK _ _ _ _ _ _ _ _ _ _ _
      (writeSlot_quadOK _ _ _ _ _ _ _ _ _ _ _
        (writeSlot_quadOK _ _ _ _ _ _ _ _ _ _ _ h)))

/-- Every share of the list satisfies the byte discipline. -/
def sharesQuadOK (sh : List (ℕ → ℕ)) : Prop :=
  ∀ s, quadOK (sh.getD s (fun _ => 0))

theorem processPixel_quadOK (src : Img) (n : ℕ) (col : Bool)
    (rnd : ℕ → ℕ → ℕ → Draws) (y x : ℕ) (shares : List (ℕ → ℕ))
    (h : sharesQuadOK shares) :
    sharesQuadOK (processPixel src n col rnd y x shares) := by
  intro s
  rw [processPixel_getD]
  by_cases hc : s < n ∧ s < shares.length
  · rw [if_pos hc]
    exact writeBlock2x2_quadOK _ _ _ _ _ _ _ _ (h s)
  · rw [if_neg hc]
    exact h s

theorem processRow_quadOK (src : Img) (n : ℕ) (col : Bool)
    (rnd : ℕ → ℕ → ℕ → Draws) (y : ℕ) (shares : List (ℕ → ℕ))
    (h : sharesQuadOK shares) :
    sharesQuadOK (processRow src n col rnd y shares) := by
  unfold processRow
  refine foldl_inv sharesQuadOK _ _ ?_ shares h
  intro a k _ ha
  exact processPixel_quadOK src n col rnd y k a ha

/-- C10: every pixel of every returned share buffer is either fully
transparent `(0,0,0,0)` or fully opaque with alpha exactly 255 and each of
its R, G, B bytes exactly 0 or exactly 255; no intermediate byte value ever
appears in an output share. -/
theorem claim10_byte_discipline (src : Img) (n : ℕ) (col : Bool)
    (rnd : ℕ → ℕ → ℕ → Draws) (_hlo : 2 ≤ n) (_hhi : n ≤ 4) :
    ∀ img ∈ generateVisualShares src n col rnd, quadOK img.data := by
  intro img hmem
  simp only [generateVisualShares] at hmem
  obtain ⟨d, hd, rfl⟩ := List.mem_map.mp hmem
  have hq : sharesQuadOK ((List.range src.height).foldl
      (fun sh y1 => processRow src n col rnd y1 sh)
      (List.replicate n (fun _ => 0))) := by
    refine foldl_inv sharesQuadOK _ _ ?_ _ ?_
    · intro a k _ ha
      exact processRow_quadOK src n col rnd k a ha
    · intro s
      by_cases hs : s < n
      · rw [getD_replicate _ _ hs]
        exact quadOK_zero
      · rw [List.getD_eq_default _ _ (by simpa using hs)]
        exact quadOK_zero
  obtain ⟨s, hslen, rfl⟩ := List.mem_iff_getElem.mp hd
  have := hq s
  rw [List.getD_eq_getElem _ _ hslen] at this
  exact this

theorem claim10_witness :
    (2 ≤ 2 ∧ 2 ≤ 4) ∧
    ∀ img ∈ generateVisualShares whitePixelImg 2 true constDraws,
      quadOK img.data :=
  ⟨by decide,
    claim10_byte_discipline whitePixelImg 2 true constDraws (by decide)
      (by decide)⟩
